import Mathlib

/-!
# A verification development for the pail object-storage library

This file gives a shallow embedding, in Lean 4, of the parts of the
evergreen-ci/pail repository that carry its correctness-relevant logic:

* the seeded (cached) AWS credential provider (`s3_credentials.go`, and the
  newer revision of the same file that adds a per-instance
  `minimumLifetime`);
* the assume-role cache-key construction (`createAssumeRoleCacheKey`);
* the lifecycle-rule longest-prefix lookup (`s3_lifecycle.go`:
  `FindMatchingRule` / `extractPrefixHierarchy`);
* the parallel sync engine (`parallelBucketImpl.Push` / `Pull`), of which the
  repository contains two revisions: the current one (with per-item relative
  paths, a worker join, and dry-run / delete-on-sync handling in Push) and an
  earlier draft (which downloads a constant pair, never joins its Push
  workers, and ignores the options in Push).

Go values are modelled as plain Lean data: strings stay `String`, `time.Time`
instants become `Int`, the process-wide credentials map becomes a function
`String → Option Credentials`, and goroutine pipelines become either
per-item outcome functions (where the code is sequential per item) or an
explicit small-step transition relation (where the property at stake is the
ordering between worker completion and the call's return).
-/

namespace Pail

/-! ## Credentials and the seeded credential cache

Embeds `seededCredentialProvider.Retrieve` from the revision of
`s3_credentials.go` that stores `minimumLifetime` on the provider instance
(the variant exercised by `s3_credentials_test.go`, whose `WithSeed` takes
three arguments).  `aws.Credentials` is modelled by its fields that the code
reads; `time.Now().Before(t)` becomes `now < t` on integer instants, and
`Expires.Add(-s.minimumLifetime)` becomes `expires - minimumLifetime`.
-/

/-- Model of `aws.Credentials`: the fields pail reads or stores. -/
structure Credentials where
  accessKeyID : String
  secretAccessKey : String
  sessionToken : String
  canExpire : Bool
  expires : Int
deriving DecidableEq, Repr

/-- The process-wide `credsCache` map, keyed by cache key. -/
def CredsCache : Type := String → Option Credentials

/-- `delete(credsCache, k)` on the map model. -/
def cacheDelete (cache : CredsCache) (k : String) : CredsCache :=
  fun k' => if k' = k then none else cache k'

/-- `credsCache[k] = &creds` on the map model. -/
def cacheInsert (cache : CredsCache) (k : String) (creds : Credentials) : CredsCache :=
  fun k' => if k' = k then some creds else cache k'

/-- What the wrapped provider's `Retrieve` returns: a credentials value and an
optional error (Go returns both; on error the credentials value is returned
through unchanged). -/
structure ProviderResult where
  creds : Credentials
  err : Option String
deriving DecidableEq, Repr

/-- Model of `seededCredentialProvider`: the wrapped provider is modelled by
the result its `Retrieve` would produce, as in the repository's own
`fakeProvider` test double. -/
structure SeededCredentialProvider where
  providerResult : ProviderResult
  cacheKey : String
  minimumLifetime : Int
deriving DecidableEq, Repr

/-- Everything observable about one `Retrieve` call: the returned value and
error, the cache state afterwards, and whether the wrapped provider was
invoked. -/
structure RetrieveResult where
  creds : Credentials
  err : Option String
  cache : CredsCache
  providerInvoked : Bool

/-- The tail of `Retrieve` after the cache check: call the wrapped provider;
on error return it with the cache as-is, on success insert the fresh
credentials under the cache key and return them. -/
def retrieveAndCache (s : SeededCredentialProvider) (cache : CredsCache) : RetrieveResult :=
  match s.providerResult.err with
  | some e => ⟨s.providerResult.creds, some e, cache, true⟩
  | none =>
      ⟨s.providerResult.creds, none, cacheInsert cache s.cacheKey s.providerResult.creds, true⟩

/-- `seededCredentialProvider.Retrieve`: if a cached entry exists and
`now` is before `expires - minimumLifetime`, return it without touching the
provider; otherwise delete the stale entry (if any) and fall through to the
wrapped provider. -/
def seededRetrieve (s : SeededCredentialProvider) (now : Int) (cache : CredsCache) :
    RetrieveResult :=
  match cache s.cacheKey with
  | some cached =>
      if now < cached.expires - s.minimumLifetime then
        ⟨cached, none, cache, false⟩
      else
        retrieveAndCache s (cacheDelete cache s.cacheKey)
  | none => retrieveAndCache s cache

/-- `createAssumeRoleCacheKey`: the role ARN, joined to the external id with
a `|` separator when one is present. -/
def createAssumeRoleCacheKey (roleARN : String) (externalID : Option String) : String :=
  match externalID with
  | some e => roleARN ++ "|" ++ e
  | none => roleARN

/-! ## Lifecycle rules (`s3_lifecycle.go`)

`extractPrefixHierarchy` walks the byte indices of the file key from the end
towards the start, collecting `fileKey[:i+1]` at every `/`, and finally adds
the empty string.  `FindMatchingRule` scans those candidate prefixes in that
order and returns the first enabled rule carrying one of them. -/

/-- Model of a storage-class transition (`Transition`). -/
structure Transition where
  days : Option Int
  storageClass : String
deriving DecidableEq, Repr

/-- Model of `LifecycleRule` with all of its fields. -/
structure LifecycleRule where
  id : String
  rulePrefix : String
  status : String
  expirationDays : Option Int
  transitionToIADays : Option Int
  transitionToGlacierDays : Option Int
  transitions : List Transition
deriving DecidableEq, Repr

/-- The index loop of `extractPrefixHierarchy`: argument `i + 1` inspects
byte index `i` (indices are visited from high to low, as in the Go `for`
loop), emitting `fileKey[:i+1]` whenever that byte is a slash. -/
def extractPrefixHierarchyAux (fileKey : String) : Nat → List String
  | 0 => []
  | i + 1 =>
      (if fileKey.data.get? i = some '/' then [⟨fileKey.data.take (i + 1)⟩] else [])
        ++ extractPrefixHierarchyAux fileKey i

/-- `extractPrefixHierarchy`: all slash-terminated prefixes of the key in
decreasing length, followed by the empty prefix. -/
def extractPrefixHierarchy (fileKey : String) : List String :=
  extractPrefixHierarchyAux fileKey fileKey.data.length ++ [""]

/-- `FindMatchingRule`: for each candidate prefix in hierarchy order, return
the first rule in the list that is `"Enabled"` and carries that prefix;
`nil` (here `none`) when the rule list is empty or nothing matches. -/
def FindMatchingRule (rules : List LifecycleRule) (fileKey : String) : Option LifecycleRule :=
  if rules.length = 0 then none
  else
    (extractPrefixHierarchy fileKey).findSome? fun p =>
      rules.find? fun r => r.status == "Enabled" && r.rulePrefix == p

/-! ## The parallel sync engine (`parallelBucketImpl`)

The repository holds two revisions of this file.  The current one joins its
Push workers, honors `dryRun` and `deleteOnSync` in Push, and has each Pull
worker compute the item's path relative to `remote`, join it onto `local`,
download that item's own key, and publish the key to `toDelete` only after a
successful download.  The earlier draft revision lacks the Push join, the
Push option handling, downloads the constant `(local, remote)` pair for
every item, and publishes the key whether or not the download failed.
Definitions suffixed `Draft` embed the draft revision; the unsuffixed ones
embed the current revision.  `filepath.Rel` and `filepath.Join` are Go
standard-library collaborators and are taken as parameters. -/

/-- Model of a `BucketItem` as the sync engine uses it: its key. -/
structure BucketItem where
  name : String
deriving DecidableEq, Repr

/-- One `Download(ctx, key, path)` call. -/
structure DownloadCall where
  key : String
  localPath : String
deriving DecidableEq, Repr

/-- One `Upload(ctx, key, path)` call. -/
structure UploadCall where
  key : String
  localPath : String
deriving DecidableEq, Repr

/-- Everything one iteration of a Pull worker's loop body does for a single
received item: the download calls it issues, whether it recorded an error,
and the keys it publishes to the `toDelete` channel. -/
structure PullItemOutcome where
  downloads : List DownloadCall
  errored : Bool
  toDelete : List String
deriving DecidableEq, Repr

/-- Pull worker body, draft revision: download the constant
`(local, remote)` pair, record any error, and — unless the context is done —
send `item.Name()` to `toDelete` regardless of the download's outcome. -/
def pullWorkerItemDraft (localRoot remote : String) (ctxDone : Bool)
    (download : DownloadCall → Bool) (item : BucketItem) : PullItemOutcome :=
  let call : DownloadCall := ⟨localRoot, remote⟩
  let ok := download call
  if ctxDone then
    { downloads := [call], errored := true, toDelete := [] }
  else
    { downloads := [call], errored := !ok, toDelete := [item.name] }

/-- Pull worker body, current revision: compute `filepath.Rel remote
item.Name()` (an error aborts the worker without a download), join it onto
`local`, download the item's own key to that path, and publish the key to
`toDelete` only when the download succeeded and the context is live. -/
def pullWorkerItem (rel : String → String → Option String)
    (join : String → String → String) (localRoot remote : String) (ctxDone : Bool)
    (download : DownloadCall → Bool) (item : BucketItem) : PullItemOutcome :=
  match rel remote item.name with
  | none => { downloads := [], errored := true, toDelete := [] }
  | some relName =>
      let call : DownloadCall := ⟨item.name, join localRoot relName⟩
      if download call then
        if ctxDone then { downloads := [call], errored := true, toDelete := [] }
        else { downloads := [call], errored := false, toDelete := [item.name] }
      else { downloads := [call], errored := true, toDelete := [] }

/-- The externally visible effects of one Push call, abstracted from worker
interleaving: the upload calls issued and how many times the local tree is
removed. -/
structure PushEffects where
  uploads : List UploadCall
  localTreeRemovals : Nat
deriving DecidableEq, Repr

/-- Push effects, draft revision: every enumerated file is uploaded with the
constant key `remote` and the file name as local path, no matter what the
options say, and the local tree is never removed (the draft Push has no
`deleteOnSync` handling at all). -/
def pushEffectsDraft (_dryRun _deleteOnSync : Bool) (_localRoot remote : String)
    (files : List String) : PushEffects :=
  { uploads := files.map fun fn => ⟨remote, fn⟩
    localTreeRemovals := 0 }

/-- Push effects, current revision: under `dryRun` every file is skipped
before its upload; otherwise each file is uploaded to
`filepath.Join remote fn` from `filepath.Join local fn`; after the workers
join, the local tree is removed exactly once when `deleteOnSync` is set and
`dryRun` is not. -/
def pushEffects (join : String → String → String) (dryRun deleteOnSync : Bool)
    (localRoot remote : String) (files : List String) : PushEffects :=
  { uploads :=
      if dryRun then []
      else files.map fun fn => ⟨join remote fn, join localRoot fn⟩
    localTreeRemovals := if deleteOnSync && !dryRun then 1 else 0 }

/-! ### A small-step model of the Push pipeline

The property "the call returns its aggregate only after all workers have
finished" is about ordering between goroutines, so Push is also given as a
transition relation.  A state holds the channel contents (the buffered
channel is filled with every file and closed before the workers start), one
slot per worker, the errors added to the catcher so far, and the aggregate
the call returned, if it has.  The two revisions share every transition
except the return: the draft returns at any time (its `wg.Wait()` is
missing), the current revision returns only once every worker is done. -/

/-- A Push worker is between items, processing one, or has exited its loop. -/
inductive WorkerSt where
  | idle : WorkerSt
  | busy : String → WorkerSt
  | done : WorkerSt
deriving DecidableEq, Repr

/-- State of one Push call's pipeline. -/
structure PushSyncState where
  queue : List String
  workers : List WorkerSt
  collected : List String
  ret : Option (List String)
deriving DecidableEq, Repr

/-- Initial state: the channel holds every enumerated file, the workers are
started idle, nothing is collected, the call has not returned. -/
def pushInit (files : List String) (workerCount : Nat) : PushSyncState :=
  ⟨files, List.replicate workerCount .idle, [], none⟩

/-- Transitions of the draft revision's Push: receive a file from the
channel, finish an upload (adding the file to the catcher when its upload
errors, `uploadErr`), exit the loop on a closed empty channel — and return
the aggregate at ANY point, because the draft never waits on its
`sync.WaitGroup`. -/
inductive PushStepDraft (uploadErr : String → Bool) : PushSyncState → PushSyncState → Prop where
  | take (s : PushSyncState) (i : Nat) (fn : String) (rest : List String) :
      s.queue = fn :: rest → s.workers.get? i = some .idle →
      PushStepDraft uploadErr s
        { s with queue := rest, workers := s.workers.set i (.busy fn) }
  | finish (s : PushSyncState) (i : Nat) (fn : String) :
      s.workers.get? i = some (.busy fn) →
      PushStepDraft uploadErr s
        { s with workers := s.workers.set i .idle
                 collected := s.collected ++ if uploadErr fn then [fn] else [] }
  | exit (s : PushSyncState) (i : Nat) :
      s.queue = [] → s.workers.get? i = some .idle →
      PushStepDraft uploadErr s { s with workers := s.workers.set i .done }
  | ret (s : PushSyncState) :
      s.ret = none →
      PushStepDraft uploadErr s { s with ret := some s.collected }

/-- Transitions of the current revision's Push: identical to the draft except
that the call may return only after `wg.Wait()`, i.e. when every worker has
exited its loop. -/
inductive PushStepJoin (uploadErr : String → Bool) : PushSyncState → PushSyncState → Prop where
  | take (s : PushSyncState) (i : Nat) (fn : String) (rest : List String) :
      s.queue = fn :: rest → s.workers.get? i = some .idle →
      PushStepJoin uploadErr s
        { s with queue := rest, workers := s.workers.set i (.busy fn) }
  | finish (s : PushSyncState) (i : Nat) (fn : String) :
      s.workers.get? i = some (.busy fn) →
      PushStepJoin uploadErr s
        { s with workers := s.workers.set i .idle
                 collected := s.collected ++ if uploadErr fn then [fn] else [] }
  | exit (s : PushSyncState) (i : Nat) :
      s.queue = [] → s.workers.get? i = some .idle →
      PushStepJoin uploadErr s { s with workers := s.workers.set i .done }
  | ret (s : PushSyncState) :
      s.ret = none → (∀ w ∈ s.workers, w = .done) →
      PushStepJoin uploadErr s { s with ret := some s.collected }

/-! ## Supporting lemmas about the current sync-engine revision

These record that the current revision of `parallelBucketImpl` has the
behavior the specification describes, for contrast with the draft revision
examined by the claims. -/

/-- In the current revision, a Pull worker publishes a key to `toDelete`
only when the context was live and the download of that item's own key to
its per-item local path returned success. -/
theorem pullWorkerItem_publish_requires_success
    (rel : String → String → Option String) (join : String → String → String)
    (localRoot remote : String) (ctxDone : Bool) (download : DownloadCall → Bool)
    (item : BucketItem)
    (h : (pullWorkerItem rel join localRoot remote ctxDone download item).toDelete ≠ []) :
    ctxDone = false ∧
    ∃ relName, rel remote item.name = some relName ∧
      download ⟨item.name, join localRoot relName⟩ = true ∧
      (pullWorkerItem rel join localRoot remote ctxDone download item).toDelete
        = [item.name] := by
  cases hrel : rel remote item.name with
  | none => simp [pullWorkerItem, hrel] at h
  | some relName =>
      cases hdl : download ⟨item.name, join localRoot relName⟩ with
      | false => simp [pullWorkerItem, hrel, hdl] at h
      | true =>
          cases ctxDone with
          | true => simp [pullWorkerItem, hrel, hdl] at h
          | false =>
              exact ⟨rfl, relName, rfl, hdl, by simp [pullWorkerItem, hrel, hdl]⟩

/-- In the current revision, the Push call removes the local tree exactly
once when `deleteOnSync` is set without `dryRun`, and never otherwise. -/
theorem pushEffects_localTreeRemovals (join : String → String → String)
    (dryRun deleteOnSync : Bool) (localRoot remote : String) (files : List String) :
    (pushEffects join dryRun deleteOnSync localRoot remote files).localTreeRemovals
      = if deleteOnSync && !dryRun then 1 else 0 := rfl

/-- In the current revision, a dry-run Push issues no uploads. -/
theorem pushEffects_dryRun_no_uploads (join : String → String → String)
    (deleteOnSync : Bool) (localRoot remote : String) (files : List String) :
    (pushEffects join true deleteOnSync localRoot remote files).uploads = [] := rfl

/-- In the current revision's Push pipeline, once the call has returned its
aggregate every worker has exited its loop: the `ret` transition is guarded
by the join, and no transition can un-finish a worker. -/
theorem pushJoin_ret_after_all_done (uploadErr : String → Bool)
    (files : List String) (workerCount : Nat) (s : PushSyncState)
    (hreach : Relation.ReflTransGen (PushStepJoin uploadErr) (pushInit files workerCount) s) :
    ∀ e, s.ret = some e → ∀ w ∈ s.workers, w = .done := by
  induction hreach with
  | refl => intro e hret; simp [pushInit] at hret
  | tail _ hstep ih =>
      intro e hret
      cases hstep with
      | take i fn rest hq hw =>
          exact fun w hmem =>
            absurd (ih e hret _ (List.get?_mem hw)) (by simp)
      | finish i fn hw =>
          exact fun w hmem =>
            absurd (ih e hret _ (List.get?_mem hw)) (by simp)
      | exit i hq hw =>
          exact fun w hmem =>
            absurd (ih e hret _ (List.get?_mem hw)) (by simp)
      | ret hnone hall => exact hall

/-! ## Claim C1 — ordering between Download success and `toDelete` -/

/-- Claim C1 (evaluation at the failing input): in the draft revision of
`parallelBucketImpl.Pull` — the revision the claim's source lines point at —
a worker that receives an item whose Download fails still records the error
AND publishes the item's key to `toDelete`, so the key becomes eligible for
the delete-on-sync batched remote delete despite the failed download. -/
theorem draftPullPublishesFailedKey :
    (pullWorkerItemDraft "local" "remote" false (fun _ => false)
        ⟨"remote/a.txt"⟩).errored = true ∧
    (pullWorkerItemDraft "local" "remote" false (fun _ => false)
        ⟨"remote/a.txt"⟩).toDelete = ["remote/a.txt"] :=
  ⟨rfl, rfl⟩

/-! ## Claim C2 — per-item download arguments -/

/-- Claim C2 (evaluation at the failing input): in the draft revision the
worker issues the same constant `Download(local, remote)` call for every
item — two distinct items produce the identical call, whose key is not the
item's own key. -/
theorem draftPullConstantDownloadPair :
    (pullWorkerItemDraft "local" "remote" false (fun _ => true)
        ⟨"remote/a.txt"⟩).downloads = [⟨"local", "remote"⟩] ∧
    (pullWorkerItemDraft "local" "remote" false (fun _ => true)
        ⟨"remote/b.txt"⟩).downloads = [⟨"local", "remote"⟩] ∧
    (BucketItem.mk "remote/a.txt" ≠ BucketItem.mk "remote/b.txt") ∧
    (DownloadCall.mk "local" "remote").key ≠ "remote/a.txt" :=
  ⟨rfl, rfl, by decide, by decide⟩

/-! ## Claim C4 — the aggregate is returned only after the workers join -/

/-- Claim C4 (evaluation at the failing input): in the draft revision's Push
pipeline — which never calls `wg.Wait()` — a state is reachable in which the
call has already returned an EMPTY error aggregate although its only file
(whose upload errors) is still sitting in the channel and the single worker
has not finished. -/
theorem draftPushReturnsBeforeJoin :
    ∃ s : PushSyncState,
      Relation.ReflTransGen (PushStepDraft fun _ => true) (pushInit ["a.txt"] 1) s ∧
      s.ret = some [] ∧ s.queue = ["a.txt"] ∧ s.workers = [.idle] := by
  refine ⟨{ queue := ["a.txt"], workers := [.idle], collected := [], ret := some [] },
    ?_, rfl, rfl, rfl⟩
  exact Relation.ReflTransGen.single (PushStepDraft.ret _ rfl)

/-! ## Claim C5 — delete-on-sync after Push -/

/-- Claim C5 (evaluation at the failing input): the draft revision's Push
never removes the local tree, even with `deleteOnSync` enabled and `dryRun`
disabled. -/
theorem draftPushNeverRemovesLocalTree (localRoot remote : String) (files : List String) :
    (pushEffectsDraft false true localRoot remote files).localTreeRemovals = 0 := rfl

/-! ## Claim C6 — dry-run Push issues no uploads -/

/-- Claim C6 (evaluation at the failing input): the draft revision's Push
issues an upload for the enumerated file even though `dryRun` is enabled. -/
theorem draftPushUploadsDespiteDryRun :
    (pushEffectsDraft true false "local" "remote" ["a.txt"]).uploads
      = [⟨"remote", "a.txt"⟩] ∧
    (pushEffectsDraft true false "local" "remote" ["a.txt"]).uploads ≠ [] :=
  ⟨rfl, by decide⟩

/-! ## Claims C3, C7, C8 — the seeded credential cache -/

/-- A cached entry whose expiry (instant 3) is inside the 5-unit minimum
lifetime window at `now = 0`: stale but present. -/
def staleCachedCreds : Credentials :=
  ⟨"cached-id", "cached-secret", "cached-token", true, 3⟩

/-- A cache holding only the stale entry under `"role-key"`. -/
def staleCache : CredsCache :=
  fun k => if k = "role-key" then some staleCachedCreds else none

/-- A seeded provider over `"role-key"` whose wrapped provider fails. -/
def failingSeededProvider : SeededCredentialProvider :=
  ⟨⟨⟨"", "", "", false, 0⟩, some "provider failure"⟩, "role-key", 5⟩

/-- Claim C3 (counterexample): with a cached entry present for the cache key
but inside the minimum-lifetime window, a failing wrapped provider's error
is NOT suppressed: `Retrieve` evicts the entry, returns the provider's error
unchanged, and does not return the cached credentials. -/
theorem retrieveStaleEntryErrorNotSuppressed :
    staleCache "role-key" = some staleCachedCreds ∧
    ¬ (0 : Int) < staleCachedCreds.expires - failingSeededProvider.minimumLifetime ∧
    (seededRetrieve failingSeededProvider 0 staleCache).err = some "provider failure" ∧
    (seededRetrieve failingSeededProvider 0 staleCache).creds ≠ staleCachedCreds ∧
    (seededRetrieve failingSeededProvider 0 staleCache).cache "role-key" = none :=
  ⟨rfl, by decide, rfl, by decide, rfl⟩

/-- Claim C3 (as amended): a cached entry shields the caller from a provider
error only by never consulting the provider, and only while the entry's
expiry is beyond `now + minimumLifetime`; once the entry is stale (or
absent) the provider's error is returned unchanged, and any stale entry has
been evicted. -/
theorem retrieveProviderErrorHandling (s : SeededCredentialProvider) (now : Int)
    (cache : CredsCache) :
    (∀ c, cache s.cacheKey = some c → now < c.expires - s.minimumLifetime →
      (seededRetrieve s now cache).err = none ∧
      (seededRetrieve s now cache).creds = c ∧
      (seededRetrieve s now cache).providerInvoked = false) ∧
    ((∀ c, cache s.cacheKey = some c → ¬ now < c.expires - s.minimumLifetime) →
      (seededRetrieve s now cache).err = s.providerResult.err ∧
      (s.providerResult.err ≠ none →
        (seededRetrieve s now cache).cache s.cacheKey = none)) := by
  constructor
  · intro c hc hfresh
    simp [seededRetrieve, hc, hfresh]
  · intro hstale
    cases hc : cache s.cacheKey with
    | some c =>
        have hns := hstale c hc
        cases herr : s.providerResult.err with
        | some e =>
            refine ⟨?_, fun _ => ?_⟩ <;>
              simp [seededRetrieve, hc, hns, retrieveAndCache, herr, cacheDelete]
        | none =>
            refine ⟨?_, fun hcontra => absurd rfl hcontra⟩
            simp [seededRetrieve, hc, hns, retrieveAndCache, herr]
    | none =>
        cases herr : s.providerResult.err with
        | some e =>
            refine ⟨?_, fun _ => ?_⟩ <;>
              simp [seededRetrieve, hc, retrieveAndCache, herr]
        | none =>
            refine ⟨?_, fun hcontra => absurd rfl hcontra⟩
            simp [seededRetrieve, hc, retrieveAndCache, herr]

/-- Claim C3 (witness for the amended claim): at the stale-entry scenario,
the amended theorem yields that the provider's error comes back unchanged
and the entry is gone. -/
theorem retrieveProviderErrorHandling_witness :
    (seededRetrieve failingSeededProvider 0 staleCache).err = some "provider failure" ∧
    (seededRetrieve failingSeededProvider 0 staleCache).cache "role-key" = none := by
  have h := (retrieveProviderErrorHandling failingSeededProvider 0 staleCache).2
    (by
      intro c hc
      have hcc : staleCachedCreds = c := Option.some.inj hc
      exact hcc ▸ (by decide :
        ¬ (0 : Int) < staleCachedCreds.expires - failingSeededProvider.minimumLifetime))
  exact ⟨h.1, h.2 (by decide)⟩

/-- Claim C7: the full cache discipline of `Retrieve`.  A still-fresh entry
(expiry strictly beyond `now + minimumLifetime`) is returned as-is without
invoking the wrapped provider and without touching the cache; otherwise the
provider is invoked and, on success, its result is both returned and stored
under the cache key. -/
theorem seededRetrieveSpec (s : SeededCredentialProvider) (now : Int)
    (cache : CredsCache) :
    (∀ c, cache s.cacheKey = some c → now < c.expires - s.minimumLifetime →
      seededRetrieve s now cache = ⟨c, none, cache, false⟩) ∧
    ((∀ c, cache s.cacheKey = some c → ¬ now < c.expires - s.minimumLifetime) →
      (seededRetrieve s now cache).providerInvoked = true ∧
      (s.providerResult.err = none →
        (seededRetrieve s now cache).creds = s.providerResult.creds ∧
        (seededRetrieve s now cache).err = none ∧
        (seededRetrieve s now cache).cache s.cacheKey = some s.providerResult.creds)) := by
  constructor
  · intro c hc hfresh
    simp [seededRetrieve, hc, hfresh]
  · intro hstale
    cases hc : cache s.cacheKey with
    | some c =>
        have hns := hstale c hc
        cases herr : s.providerResult.err with
        | some e =>
            refine ⟨?_, fun hcontra => Option.noConfusion hcontra⟩
            simp [seededRetrieve, hc, hns, retrieveAndCache, herr]
        | none =>
            refine ⟨?_, fun _ => ?_⟩ <;>
              simp [seededRetrieve, hc, hns, retrieveAndCache, herr, cacheInsert]
    | none =>
        cases herr : s.providerResult.err with
        | some e =>
            refine ⟨?_, fun hcontra => Option.noConfusion hcontra⟩
            simp [seededRetrieve, hc, retrieveAndCache, herr]
        | none =>
            refine ⟨?_, fun _ => ?_⟩ <;>
              simp [seededRetrieve, hc, retrieveAndCache, herr, cacheInsert]

/-- A fresh cached entry (expiry 100, margin 5, `now = 0`) for the C7
witness. -/
def freshCachedCreds : Credentials :=
  ⟨"fresh-id", "fresh-secret", "fresh-token", true, 100⟩

/-- A cache holding only the fresh entry under `"fresh-key"`. -/
def freshCache : CredsCache :=
  fun k => if k = "fresh-key" then some freshCachedCreds else none

/-- A seeded provider over `"fresh-key"` whose wrapped provider would
succeed with different credentials. -/
def freshSeededProvider : SeededCredentialProvider :=
  ⟨⟨⟨"other-id", "other-secret", "", true, 7⟩, none⟩, "fresh-key", 5⟩

/-- Claim C7 (witness): at the fresh-entry scenario the theorem yields the
cached entry untouched, with the provider not invoked. -/
theorem seededRetrieveSpec_witness :
    seededRetrieve freshSeededProvider 0 freshCache
      = ⟨freshCachedCreds, none, freshCache, false⟩ :=
  (seededRetrieveSpec freshSeededProvider 0 freshCache).1 freshCachedCreds rfl (by decide)

/-- Claim C8: the minimum-lifetime margin used by the staleness test is read
from the provider instance, not from the cache entry: two providers sharing
a cache key each compare the same cached entry's expiry against their own
margin. -/
theorem minimumLifetimePerCaller (p1 p2 : SeededCredentialProvider)
    (cache : CredsCache) (now : Int) (c : Credentials)
    (hk : p1.cacheKey = p2.cacheKey) (h1 : cache p1.cacheKey = some c) :
    ((seededRetrieve p1 now cache).providerInvoked = false ↔
      now < c.expires - p1.minimumLifetime) ∧
    ((seededRetrieve p2 now cache).providerInvoked = false ↔
      now < c.expires - p2.minimumLifetime) := by
  have h2 : cache p2.cacheKey = some c := hk ▸ h1
  constructor
  · by_cases hfresh : now < c.expires - p1.minimumLifetime
    · simp [seededRetrieve, h1, hfresh]
    · cases herr : p1.providerResult.err <;>
        simp [seededRetrieve, h1, hfresh, retrieveAndCache, herr]
  · by_cases hfresh : now < c.expires - p2.minimumLifetime
    · simp [seededRetrieve, h2, hfresh]
    · cases herr : p2.providerResult.err <;>
        simp [seededRetrieve, h2, hfresh, retrieveAndCache, herr]

/-- The shared cached entry for the C8 witness: expires at instant 5. -/
def sharedCachedCreds : Credentials :=
  ⟨"shared-id", "shared-secret", "", true, 5⟩

/-- A cache holding the shared entry under `"shared-role"`. -/
def sharedMarginCache : CredsCache :=
  fun k => if k = "shared-role" then some sharedCachedCreds else none

/-- A seeded provider over `"shared-role"` demanding a 10-unit margin. -/
def marginTenProvider : SeededCredentialProvider :=
  ⟨⟨⟨"p-id", "p-secret", "", true, 50⟩, none⟩, "shared-role", 10⟩

/-- A seeded provider over `"shared-role"` demanding a 2-unit margin. -/
def marginTwoProvider : SeededCredentialProvider :=
  ⟨⟨⟨"q-id", "q-secret", "", true, 50⟩, none⟩, "shared-role", 2⟩

/-- Claim C8 (witness): against the same cached entry expiring at instant 5,
at `now = 0` the caller with margin 10 invokes its wrapped provider while
the caller with margin 2 is served from the cache. -/
theorem minimumLifetimePerCaller_witness :
    (seededRetrieve marginTenProvider 0 sharedMarginCache).providerInvoked = true ∧
    (seededRetrieve marginTwoProvider 0 sharedMarginCache).providerInvoked = false := by
  have h := minimumLifetimePerCaller marginTenProvider marginTwoProvider
    sharedMarginCache 0 sharedCachedCreds rfl rfl
  refine ⟨?_, h.2.mpr (by decide)⟩
  cases hb : (seededRetrieve marginTenProvider 0 sharedMarginCache).providerInvoked
  · exact absurd (h.1.mp hb) (by decide)
  · rfl

/-! ## Claim C9 — the assume-role cache key -/

/-- Splitting a character list at a separator character that occurs in
neither left part is unambiguous. -/
theorem append_sep_inj {c : Char} (l1 : List Char) :
    ∀ (l2 m1 m2 : List Char), c ∉ l1 → c ∉ l2 →
      l1 ++ c :: m1 = l2 ++ c :: m2 → l1 = l2 ∧ m1 = m2 := by
  induction l1 with
  | nil =>
      intro l2 m1 m2 _ h2 h
      cases l2 with
      | nil => simpa using h
      | cons b l2 =>
          simp only [List.nil_append, List.cons_append, List.cons.injEq] at h
          exact absurd (h.1 ▸ List.mem_cons_self b l2) h2
  | cons a l1 ih =>
      intro l2 m1 m2 h1 h2 h
      cases l2 with
      | nil =>
          simp only [List.cons_append, List.nil_append, List.cons.injEq] at h
          exact absurd (h.1 ▸ List.mem_cons_self a l1) h1
      | cons b l2 =>
          simp only [List.cons_append, List.cons.injEq] at h
          obtain ⟨rfl, h⟩ := h
          have hrec := ih l2 m1 m2 (fun hm => h1 (List.mem_cons_of_mem _ hm))
            (fun hm => h2 (List.mem_cons_of_mem _ hm)) h
          exact ⟨by rw [hrec.1], hrec.2⟩

/-- The characters of `createAssumeRoleCacheKey` with an external id. -/
theorem createAssumeRoleCacheKey_some_data (r e : String) :
    (createAssumeRoleCacheKey r (some e)).data = r.data ++ '|' :: e.data := by
  show (r ++ "|" ++ e).data = r.data ++ '|' :: e.data
  simp [String.data_append]

/-- Claim C9: the assume-role cache key is the role identifier alone when no
external id is given, and the role identifier, the `|` separator, and the
external id otherwise; for role identifiers free of the separator character,
the construction is injective on (role, external id) pairs. -/
theorem assumeRoleCacheKeySpec :
    (∀ r : String, createAssumeRoleCacheKey r none = r) ∧
    (∀ r e : String, createAssumeRoleCacheKey r (some e) = r ++ "|" ++ e) ∧
    (∀ (r1 r2 : String) (e1 e2 : Option String),
      '|' ∉ r1.data → '|' ∉ r2.data →
      createAssumeRoleCacheKey r1 e1 = createAssumeRoleCacheKey r2 e2 →
      r1 = r2 ∧ e1 = e2) := by
  refine ⟨fun r => rfl, fun r e => rfl, ?_⟩
  intro r1 r2 e1 e2 h1 h2 heq
  have hdata : (createAssumeRoleCacheKey r1 e1).data
      = (createAssumeRoleCacheKey r2 e2).data := by rw [heq]
  cases e1 with
  | none =>
      cases e2 with
      | none => exact ⟨heq, rfl⟩
      | some e2 =>
          rw [createAssumeRoleCacheKey_some_data] at hdata
          have : '|' ∈ r1.data := by
            rw [show (createAssumeRoleCacheKey r1 none).data = r1.data from rfl] at hdata
            rw [hdata]
            exact List.mem_append_right _ (List.mem_cons_self _ _)
          exact absurd this h1
  | some e1 =>
      cases e2 with
      | none =>
          rw [createAssumeRoleCacheKey_some_data] at hdata
          have : '|' ∈ r2.data := by
            rw [show (createAssumeRoleCacheKey r2 none).data = r2.data from rfl] at hdata
            rw [← hdata]
            exact List.mem_append_right _ (List.mem_cons_self _ _)
          exact absurd this h2
      | some e2 =>
          rw [createAssumeRoleCacheKey_some_data, createAssumeRoleCacheKey_some_data] at hdata
          have hsplit := append_sep_inj r1.data r2.data e1.data e2.data h1 h2 hdata
          exact ⟨String.ext hsplit.1, by rw [String.ext hsplit.2]⟩

/-- Claim C9 (witness): the construction applied at concrete inputs, with
the separator-freedom hypotheses discharged by evaluation. -/
theorem assumeRoleCacheKeySpec_witness :
    createAssumeRoleCacheKey "arn-role" none = "arn-role" ∧
    createAssumeRoleCacheKey "arn-role" (some "ext") = "arn-role" ++ "|" ++ "ext" ∧
    ("arn-role" : String) = "arn-role" ∧ (some "ext" : Option String) = some "ext" :=
  ⟨assumeRoleCacheKeySpec.1 "arn-role",
   assumeRoleCacheKeySpec.2.1 "arn-role" "ext",
   assumeRoleCacheKeySpec.2.2 "arn-role" "arn-role" (some "ext") (some "ext")
     (by decide) (by decide) rfl⟩

/-! ## Claim C10 — lifecycle longest-prefix matching -/

/-- Every element emitted by the hierarchy index loop below bound `i` is
nonempty and of length at most `i`. -/
theorem length_of_mem_extractPrefixHierarchyAux (fileKey : String) :
    ∀ (i : Nat) (p : String), p ∈ extractPrefixHierarchyAux fileKey i →
      1 ≤ p.data.length ∧ p.data.length ≤ i := by
  intro i
  induction i with
  | zero => intro p hp; simp [extractPrefixHierarchyAux] at hp
  | succ i ih =>
      intro p hp
      unfold extractPrefixHierarchyAux at hp
      rcases List.mem_append.1 hp with hp | hp
      · by_cases hg : fileKey.data.get? i = some '/'
        · rw [if_pos hg] at hp
          simp only [List.mem_singleton] at hp
          subst hp
          obtain ⟨hlt, -⟩ := List.get?_eq_some.1 hg
          simp only [List.length_take]
          omega
        · rw [if_neg hg] at hp
          simp at hp
      · have := ih p hp
        omega

/-- The hierarchy index loop emits prefixes of strictly decreasing length. -/
theorem pairwise_extractPrefixHierarchyAux (fileKey : String) :
    ∀ i, (extractPrefixHierarchyAux fileKey i).Pairwise
      (fun a b => b.data.length < a.data.length) := by
  intro i
  induction i with
  | zero => simp [extractPrefixHierarchyAux]
  | succ i ih =>
      unfold extractPrefixHierarchyAux
      by_cases hg : fileKey.data.get? i = some '/'
      · rw [if_pos hg]
        refine List.pairwise_append.2 ⟨List.pairwise_singleton _ _, ih, ?_⟩
        intro a ha b hb
        simp only [List.mem_singleton] at ha
        subst ha
        obtain ⟨hlt, -⟩ := List.get?_eq_some.1 hg
        have := length_of_mem_extractPrefixHierarchyAux fileKey i b hb
        simp only [List.length_take]
        omega
      · rw [if_neg hg]
        simpa using ih

/-- The whole prefix hierarchy of a key is of strictly decreasing length:
the slash-terminated prefixes from longest to shortest, then the empty
prefix. -/
theorem pairwise_extractPrefixHierarchy (fileKey : String) :
    (extractPrefixHierarchy fileKey).Pairwise
      (fun a b => b.data.length < a.data.length) := by
  unfold extractPrefixHierarchy
  refine List.pairwise_append.2
    ⟨pairwise_extractPrefixHierarchyAux fileKey _, List.pairwise_singleton _ _, ?_⟩
  intro a ha b hb
  simp only [List.mem_singleton] at hb
  subst hb
  have h1 := length_of_mem_extractPrefixHierarchyAux fileKey _ a ha
  have h0 : ("" : String).data.length = 0 := rfl
  omega

/-- Decomposition of a successful `findSome?`: the list splits at the first
element on which the function fires. -/
theorem findSome?_eq_some_split {α β : Type} (f : α → Option β) :
    ∀ (l : List α) (b : β), l.findSome? f = some b →
      ∃ l1 a l2, l = l1 ++ a :: l2 ∧ f a = some b ∧ ∀ x ∈ l1, f x = none := by
  intro l
  induction l with
  | nil => intro b h; simp at h
  | cons a l ih =>
      intro b h
      rw [List.findSome?_cons] at h
      cases hf : f a with
      | some c =>
          simp only [hf] at h
          exact ⟨[], a, l, rfl, by rw [hf, h], by simp⟩
      | none =>
          simp only [hf] at h
          obtain ⟨l1, x, l2, heq, hfx, hnone⟩ := ih b h
          refine ⟨a :: l1, x, l2, by rw [heq]; rfl, hfx, ?_⟩
          intro y hy
          rcases List.mem_cons.1 hy with rfl | hy
          · exact hf
          · exact hnone y hy

/-- Claim C10: `FindMatchingRule` returns a rule from the list whose status
is `"Enabled"` and whose prefix is the longest element of the key's prefix
hierarchy carried by any enabled rule; it returns `none` exactly when no
enabled rule's prefix occurs in the hierarchy (in particular rules of any
other status are never returned). -/
theorem findMatchingRuleSpec (rules : List LifecycleRule) (fileKey : String) :
    (∀ r, FindMatchingRule rules fileKey = some r →
        r ∈ rules ∧ r.status = "Enabled" ∧
        r.rulePrefix ∈ extractPrefixHierarchy fileKey ∧
        ∀ q ∈ extractPrefixHierarchy fileKey,
          (∃ r' ∈ rules, r'.status = "Enabled" ∧ r'.rulePrefix = q) →
          q.data.length ≤ r.rulePrefix.data.length) ∧
    (FindMatchingRule rules fileKey = none ↔
      ∀ r ∈ rules, r.status = "Enabled" →
        r.rulePrefix ∉ extractPrefixHierarchy fileKey) := by
  by_cases hlen : rules.length = 0
  · have hnil : rules = [] := List.length_eq_zero.1 hlen
    subst hnil
    constructor
    · intro r hr; simp [FindMatchingRule] at hr
    · simp [FindMatchingRule]
  · have hFMR : FindMatchingRule rules fileKey
        = (extractPrefixHierarchy fileKey).findSome? (fun p =>
            rules.find? fun r => r.status == "Enabled" && r.rulePrefix == p) := by
      simp [FindMatchingRule, hlen]
    constructor
    · intro r hr
      rw [hFMR] at hr
      obtain ⟨l1, p, l2, hsplit, hfp, hnone⟩ := findSome?_eq_some_split _ _ _ hr
      have hmem : r ∈ rules := List.mem_of_find?_eq_some hfp
      have hpred := List.find?_some hfp
      simp only [Bool.and_eq_true, beq_iff_eq] at hpred
      obtain ⟨hstatus, hpfx⟩ := hpred
      have hpmem : r.rulePrefix ∈ extractPrefixHierarchy fileKey := by
        rw [hsplit, hpfx]
        exact List.mem_append_right _ (List.mem_cons_self _ _)
      refine ⟨hmem, hstatus, hpmem, ?_⟩
      intro q hq hex
      obtain ⟨r', hr'mem, hr'status, hr'pfx⟩ := hex
      rw [hsplit] at hq
      rcases List.mem_append.1 hq with hq1 | hq2
      · have hqnone := hnone q hq1
        rw [List.find?_eq_none] at hqnone
        have : (r'.status == "Enabled" && r'.rulePrefix == q) = true := by
          simp [hr'status, hr'pfx]
        exact absurd this (hqnone r' hr'mem)
      · rcases List.mem_cons.1 hq2 with heq | hq3
        · rw [heq, hpfx]
        · have hpw := pairwise_extractPrefixHierarchy fileKey
          rw [hsplit] at hpw
          have hp2 := (List.pairwise_append.1 hpw).2.1
          have hlt := List.rel_of_pairwise_cons hp2 hq3
          rw [hpfx]
          omega
    · rw [hFMR]
      constructor
      · intro hn r hrmem hrstatus hrpfx
        rw [List.findSome?_eq_none_iff] at hn
        have hfind := hn _ hrpfx
        rw [List.find?_eq_none] at hfind
        have : (r.status == "Enabled" && r.rulePrefix == r.rulePrefix) = true := by
          simp [hrstatus]
        exact absurd this (hfind r hrmem)
      · intro hall
        rw [List.findSome?_eq_none_iff]
        intro p hp
        rw [List.find?_eq_none]
        intro r hrmem hpred
        simp only [Bool.and_eq_true, beq_iff_eq] at hpred
        exact hall r hrmem hpred.1 (hpred.2 ▸ hp)

/-- The rule list from the repository's own `TestFindMatchingRule`, used as
the witness scenario. -/
def lifecycleTestRules : List LifecycleRule :=
  [⟨"r1", "sandbox/", "Enabled", some 30, none, none, []⟩,
   ⟨"r2", "sandbox/temp/", "Enabled", some 7, none, none, []⟩,
   ⟨"r3", "", "Enabled", some 90, none, none, []⟩,
   ⟨"r4", "disabled/", "Disabled", some 1, none, none, []⟩]

/-- The rule the lookup should select for `"sandbox/temp/file.txt"`. -/
def lifecycleRuleR2 : LifecycleRule :=
  ⟨"r2", "sandbox/temp/", "Enabled", some 7, none, none, []⟩

/-- Claim C10 (witness): on the repository's own test rules and key, the
theorem yields that the selected rule is in the list, enabled, and carries a
prefix from the key's hierarchy. -/
theorem findMatchingRuleSpec_witness :
    lifecycleRuleR2 ∈ lifecycleTestRules ∧
    lifecycleRuleR2.status = "Enabled" ∧
    lifecycleRuleR2.rulePrefix ∈ extractPrefixHierarchy "sandbox/temp/file.txt" := by
  have h := (findMatchingRuleSpec lifecycleTestRules "sandbox/temp/file.txt").1
    lifecycleRuleR2 rfl
  exact ⟨h.1, h.2.1, h.2.2.1⟩

end Pail
